import Mathlib

/-!
Verification development for `src/services/v1/video/split.py` of the
no-code-architects-toolkit repository.

The Python module is embedded shallowly:

* timestamps are parsed into exact fractions (`Frac`, interpreted in `ℚ`
  by `Frac.toRat`; Python `float` values are modelled as exact rationals,
  and the decimal/exponent literal grammar of `int()`/`float()` is
  modelled exactly, while the `inf`/`nan` literals, surrounding whitespace
  and digit-group underscores — none of which appear in the spec's
  grammar — are outside the model and count as parse failures);
* the external collaborators (ffmpeg, ffprobe, cloud upload, HTTP) are an
  explicit environment of oracles;
* the local filesystem is a set of path strings threaded through the run;
* Python exceptions are `Except` values.
-/

/-- Sum of decimal digits, most significant first, as produced by
`foldl`: the numeric value of a digit string. -/
def digitsToNat (cs : List Char) : Nat :=
  cs.foldl (fun n c => 10 * n + (c.toNat - 48)) 0

/-- Model of Python `str.split(':')`: splits at every colon, keeping empty
pieces, and returns `[[]]` on the empty string (Python returns `['']`). -/
def splitCols : List Char → List (List Char)
  | [] => [[]]
  | c :: cs =>
    if c = ':' then [] :: splitCols cs
    else
      match splitCols cs with
      | [] => [[c]]
      | p :: ps => (c :: p) :: ps

/-- Model of Python `int(s)` on a decimal literal: an optional sign
followed by a nonempty run of digits. -/
def parseIntChars : List Char → Option Int
  | '-' :: rest =>
    if !rest.isEmpty && rest.all Char.isDigit then
      some (-(digitsToNat rest : Int))
    else none
  | '+' :: rest =>
    if !rest.isEmpty && rest.all Char.isDigit then
      some ((digitsToNat rest : Int))
    else none
  | rest =>
    if !rest.isEmpty && rest.all Char.isDigit then
      some ((digitsToNat rest : Int))
    else none

/-- Strip one optional leading sign; the `Bool` is true for a minus. -/
def stripSign (cs : List Char) : Bool × List Char :=
  match cs with
  | [] => (false, [])
  | c :: r => if c = '-' then (true, r) else if c = '+' then (false, r) else (false, c :: r)

/-- An exact fraction.  Python `float` values are modelled as exact
rationals; this explicit numerator/denominator representation (denominator
always a positive power of ten here) is used instead of `ℚ` so that every
operation is plain integer arithmetic.  `Frac.toRat` below interprets a
`Frac` in `ℚ`, and lemmas later in the file show the comparison operators
agree with the `ℚ` order. -/
structure Frac where
  num : Int
  den : Nat
deriving DecidableEq

/-- An integer as a fraction. -/
def Frac.ofInt (n : Int) : Frac := ⟨n, 1⟩

/-- Exact addition (no reduction of the result). -/
def Frac.add (a b : Frac) : Frac :=
  ⟨a.num * b.den + b.num * a.den, a.den * b.den⟩

/-- Negation. -/
def Frac.neg (a : Frac) : Frac := ⟨-a.num, a.den⟩

/-- Strict order by cross-multiplication (valid for positive
denominators). -/
def Frac.lt (a b : Frac) : Prop := a.num * b.den < b.num * a.den

/-- Non-strict order by cross-multiplication (valid for positive
denominators). -/
def Frac.le (a b : Frac) : Prop := a.num * b.den ≤ b.num * a.den

instance (a b : Frac) : Decidable (Frac.lt a b) :=
  inferInstanceAs (Decidable (_ < _))

instance (a b : Frac) : Decidable (Frac.le a b) :=
  inferInstanceAs (Decidable (_ ≤ _))

/-- Interpretation in `ℚ`. -/
def Frac.toRat (a : Frac) : ℚ := (a.num : ℚ) / (a.den : ℚ)

/-- Model of the mantissa part of a Python `float` literal:
`digits`, `digits.digits`, `digits.` or `.digits` (at least one digit in
total); the value of `ip.frac` is `ip + frac / 10 ^ frac.length`. -/
def parseMantissa (cs : List Char) : Option Frac :=
  let ip := cs.takeWhile (fun c => c != '.')
  match cs.dropWhile (fun c => c != '.') with
  | [] =>
    if !ip.isEmpty && ip.all Char.isDigit then some (Frac.ofInt (digitsToNat ip))
    else none
  | _ :: frac =>
    if ip.isEmpty && frac.isEmpty then none
    else if ip.all Char.isDigit && frac.all Char.isDigit then
      some ⟨(digitsToNat ip * 10 ^ frac.length + digitsToNat frac : Nat), 10 ^ frac.length⟩
    else none

/-- Model of Python `float(s)` on a decimal literal: optional sign,
mantissa, optional exponent introduced by `e` or `E` (a positive exponent
scales the numerator, a negative one the denominator). -/
def parseFloatChars (cs : List Char) : Option Frac :=
  let (neg, body) := stripSign cs
  let mantPart := body.takeWhile (fun c => c != 'e' && c != 'E')
  let val? :=
    match body.dropWhile (fun c => c != 'e' && c != 'E') with
    | [] => parseMantissa mantPart
    | _ :: expPart =>
      match parseMantissa mantPart with
      | none => none
      | some mv =>
        let (eneg, edigits) := stripSign expPart
        if !edigits.isEmpty && edigits.all Char.isDigit then
          let emag := digitsToNat edigits
          some (if eneg then ⟨mv.num, mv.den * 10 ^ emag⟩
                else ⟨mv.num * ((10 : Int)) ^ emag, mv.den⟩)
        else none
  val?.map (fun v => if neg then Frac.neg v else v)

/-- Error raised by `time_to_seconds` (the source's
`ValueError("Invalid time format: ...")`). -/
inductive TimeErr
  | invalidTimeFormat
deriving DecidableEq

/-- Embedding of `time_to_seconds` (split.py lines 33-54): split on `':'`;
three parts parse as `int:int:float`, two parts as `int:float`, any other
shape falls through to `float(time_str)` on the whole string; a failed
conversion raises the invalid-time-format `ValueError`. -/
def time_to_seconds (time_str : String) : Except TimeErr Frac :=
  match splitCols time_str.toList with
  | [h, m, s] =>
    match parseIntChars h, parseIntChars m, parseFloatChars s with
    | some hv, some mv, some sv => .ok (Frac.add (Frac.ofInt (hv * 3600 + mv * 60)) sv)
    | _, _, _ => .error .invalidTimeFormat
  | [m, s] =>
    match parseIntChars m, parseFloatChars s with
    | some mv, some sv => .ok (Frac.add (Frac.ofInt (mv * 60)) sv)
    | _, _ => .error .invalidTimeFormat
  | _ =>
    match parseFloatChars time_str.toList with
    | some v => .ok v
    | none => .error .invalidTimeFormat

/-- A request dictionary from the `splits` list; `none` models an absent
key (the source indexes `split['start']` / `split['end']` directly, so an
absent key raises `KeyError`). -/
structure RawSplit where
  start : Option String
  «end» : Option String
deriving DecidableEq

/-- One element of the source's `valid_splits` list: the tuple
`(i, start_seconds, end_seconds, split)` built at split.py line 181.  Of the
request dictionary only its `start`/`end` strings are read downstream
(lines 196-197 and 240-241), and both are present for a valid split, so the
tuple carries the two strings directly. -/
structure ValidSplit where
  idx : Nat
  startSeconds : Frac
  endSeconds : Frac
  startRaw : String
  endRaw : String
deriving DecidableEq

/-- Embedding of one iteration of the validation loop (split.py lines
161-183): `KeyError` (absent dictionary key) propagates as `.error`, a
`ValueError` from `time_to_seconds` is caught and the request skipped
(`.ok none`), an accepted request yields its clamped bounds and raw
strings.  Note the source evaluates `split['start']`, parses it, then
evaluates `split['end']`: a request whose `start` fails to parse never
touches its `end` key. -/
def processSplitEntry (file_duration : Frac) (s : RawSplit) :
    Except String (Option (Frac × Frac × String × String)) :=
  match s.start with
  | none => .error "start"
  | some startRaw =>
    match time_to_seconds startRaw with
    | .error _ => .ok none
    | .ok start_seconds =>
      match s.«end» with
      | none => .error "end"
      | some endRaw =>
        match time_to_seconds endRaw with
        | .error _ => .ok none
        | .ok end_seconds =>
          if Frac.le end_seconds start_seconds then .ok none
          else
            let start_seconds :=
              if Frac.lt start_seconds (Frac.ofInt 0) then Frac.ofInt 0 else start_seconds
            let end_seconds :=
              if Frac.lt file_duration end_seconds then file_duration else end_seconds
            if Frac.lt start_seconds end_seconds then
              .ok (some (start_seconds, end_seconds, startRaw, endRaw))
            else .ok none

/-- Embedding of the whole validation loop: `i` is the 0-based `enumerate`
counter of split.py line 161; the accepted requests keep it as their
stable index. -/
def validateSplits (file_duration : Frac) : List RawSplit → Nat → Except String (List ValidSplit)
  | [], _ => .ok []
  | s :: rest, i =>
    match processSplitEntry file_duration s with
    | .error k => .error k
    | .ok none => validateSplits file_duration rest (i + 1)
    | .ok (some (ss, es, a, b)) =>
      match validateSplits file_duration rest (i + 1) with
      | .error k => .error k
      | .ok vs => .ok (⟨i, ss, es, a, b⟩ :: vs)

/-- A manifest entry dictionary.  Entries appended by this run always carry
all four keys; entries loaded from a prior manifest may lack any of them
(the source reads them with `dict.get`, except `split_index` which the sort
key indexes directly). -/
structure JEntry where
  split_index : Option Int
  file_url : Option String
  start : Option String
  «end» : Option String
deriving DecidableEq

/-- The `video_json` dictionary as re-serialized on each segment (split.py
lines 248-250): its `video_path` and `video_splits` keys.  Other keys of a
loaded manifest are carried through verbatim by the source and never read,
so they are not modelled. -/
structure Manifest where
  video_path : Option String
  video_splits : List JEntry
deriving DecidableEq

/-- Errors that abort the run (Python exceptions reaching the outer
`except` of split.py line 274). -/
inductive RunErr
  | keyError (key : String)
  | noValidSegments
  | ffmpegError (splitIdx : Nat)
  | uploadFailed (splitIdx : Nat)
  | manifestUploadFailed
deriving DecidableEq

/-- Observable external calls made by the processing loop, in order, each
recording the collaborator's reply. -/
inductive Ev
  | encodeCall (splitIdx : Nat) (ok : Bool)
  | uploadSegCall (splitIdx : Nat) (path : String) (result : Option String)
  | uploadManifestCall (m : Manifest) (result : Option String)
deriving DecidableEq

/-- Oracles for the external collaborators: `encode i` is whether the
ffmpeg invocation for the request at 0-based index `i` exits 0 (a failing
invocation is modelled as producing no output file), and `upload n p` is
the URL returned by the `n`-th `upload_file` call of the run, made with
local path `p` (or `none` for a falsy reply). -/
structure Env where
  encode : Nat → Bool
  upload : Nat → String → Option String

/-- Static per-run strings: resolved local input path, storage directory,
job id, input extension and manifest file name. -/
structure Cfg where
  input : String
  storage : String
  job_id : String
  ext : String
  jsonFile : String

/-- Output path of split.py line 193. -/
def outputFilename (cfg : Cfg) (idx : Nat) : String :=
  cfg.storage ++ "/" ++ cfg.job_id ++ "_split_" ++ toString (idx + 1) ++ cfg.ext

/-- Local path of the manifest temp file (split.py line 251). -/
def manifestPath (cfg : Cfg) : String :=
  cfg.storage ++ "/" ++ cfg.jsonFile

/-- Create or overwrite a file: the filesystem is modelled as the set of
existing paths. -/
def insertFile (p : String) (fs : List String) : List String :=
  if p ∈ fs then fs else p :: fs

/-- Model of `os.remove`. -/
def removeFile (p : String) (fs : List String) : List String :=
  fs.filter (fun q => q != p)

/-- The per-entry comparison of the duplicate check (split.py lines
196-197): raw-string equality, with `vs.get` returning `None` for an
absent key (and `str == None` being false). -/
def matchesRange (startRaw endRaw : String) (vs : JEntry) : Bool :=
  (some startRaw == vs.start) && (some endRaw == vs.«end»)

/-- Embedding of the duplicate check of split.py lines 196-199, applied to
the live `video_splits` list. -/
def isDuplicate (startRaw endRaw : String) (video_splits : List JEntry) : Bool :=
  video_splits.any (matchesRange startRaw endRaw)

/-- Sort key of split.py line 244 (`x["split_index"]`); only evaluated on
entries whose key is present. -/
def entryKey (e : JEntry) : Int :=
  e.split_index.getD 0

/-- Comparison used to model Python's ascending `list.sort(key=...)`. -/
def entryLE (a b : JEntry) : Prop :=
  entryKey a ≤ entryKey b

instance : DecidableRel entryLE :=
  fun a b => inferInstanceAs (Decidable (entryKey a ≤ entryKey b))

instance : IsTotal JEntry entryLE :=
  ⟨fun _ _ => le_total _ _⟩

instance : IsTrans JEntry entryLE :=
  ⟨fun _ _ _ h h2 => le_trans h h2⟩

/-- Embedding of `video_splits.sort(key=lambda x: x["split_index"])`
(split.py line 244): raises `KeyError` when any entry lacks the key,
otherwise sorts ascending by it. -/
def sortEntries (l : List JEntry) : Except RunErr (List JEntry) :=
  if l.all (fun e => e.split_index.isSome) then .ok (l.insertionSort entryLE)
  else .error (.keyError "split_index")

/-- The manifest entry dictionary built at split.py lines 237-242 for a
processed segment: 1-based index, cloud URL, and the raw request
strings. -/
def mkEntry (v : ValidSplit) (url : String) : JEntry :=
  ⟨some ((v.idx : Int) + 1), some url, some v.startRaw, some v.endRaw⟩

/-- Mutable state of the per-segment loop: the live `video_splits` list,
the set of existing local files, the `temp_files` list and the count of
`upload_file` calls made so far. -/
structure LoopSt where
  entries : List JEntry
  fs : List String
  temp_files : List String
  upCtr : Nat

/-- Embedding of the per-segment loop of split.py lines 191-269, returning
the state reached, the external calls made, and the first error (if any).
The source's order of effects is kept: duplicate check, encode (output file
appears), segment upload, entry append, sort, manifest temp file write,
manifest upload, `temp_files` bookkeeping (lines 262-263, only after a
successful manifest upload), then removal of the manifest temp file and the
segment file. -/
def processLoop (env : Env) (cfg : Cfg) :
    List ValidSplit → LoopSt → LoopSt × List Ev × Option RunErr
  | [], st => (st, [], none)
  | v :: rest, st =>
    if isDuplicate v.startRaw v.endRaw st.entries then
      processLoop env cfg rest st
    else
      let out := outputFilename cfg v.idx
      if !env.encode v.idx then
        (st, [.encodeCall (v.idx + 1) false], some (.ffmpegError (v.idx + 1)))
      else
        let st1 : LoopSt := { st with fs := insertFile out st.fs }
        match env.upload st1.upCtr out with
        | none =>
          ({ st1 with upCtr := st1.upCtr + 1 },
           [.encodeCall (v.idx + 1) true, .uploadSegCall (v.idx + 1) out none],
           some (.uploadFailed (v.idx + 1)))
        | some url =>
          let appended := st1.entries ++ [mkEntry v url]
          match sortEntries appended with
          | .error e =>
            ({ st1 with entries := appended, upCtr := st1.upCtr + 1 },
             [.encodeCall (v.idx + 1) true, .uploadSegCall (v.idx + 1) out (some url)],
             some e)
          | .ok sorted =>
            let m : Manifest := ⟨some cfg.input, sorted⟩
            let st2 : LoopSt :=
              { entries := sorted, fs := insertFile (manifestPath cfg) st1.fs,
                temp_files := st1.temp_files, upCtr := st1.upCtr + 1 }
            match env.upload st2.upCtr (manifestPath cfg) with
            | none =>
              ({ st2 with upCtr := st2.upCtr + 1 },
               [.encodeCall (v.idx + 1) true, .uploadSegCall (v.idx + 1) out (some url),
                .uploadManifestCall m none],
               some .manifestUploadFailed)
            | some murl =>
              let st3 : LoopSt :=
                { entries := sorted,
                  fs := removeFile out (removeFile (manifestPath cfg) st2.fs),
                  temp_files := st2.temp_files ++ [out, manifestPath cfg],
                  upCtr := st2.upCtr + 1 }
              match processLoop env cfg rest st3 with
              | (st4, evs, err) =>
                (st4,
                 .encodeCall (v.idx + 1) true :: .uploadSegCall (v.idx + 1) out (some url) ::
                   .uploadManifestCall m (some murl) :: evs,
                 err)

/-- The loop state after a fully successful segment iteration: entries
replaced by the sorted list, the segment file and manifest temp file
created and then removed again, both paths appended to `temp_files`, and
two upload calls consumed. -/
def stepState (cfg : Cfg) (v : ValidSplit) (sorted : List JEntry) (st : LoopSt) : LoopSt :=
  ⟨sorted,
   removeFile (outputFilename cfg v.idx)
     (removeFile (manifestPath cfg)
       (insertFile (manifestPath cfg) (insertFile (outputFilename cfg v.idx) st.fs))),
   st.temp_files ++ [outputFilename cfg v.idx, manifestPath cfg],
   st.upCtr + 2⟩

/-- Embedding of the cleanup block of split.py lines 277-283: remove the
input file if it exists, then every `temp_files` entry that exists. -/
def cleanupFs (input : String) (temp_files : List String) (fs : List String) : List String :=
  let fs1 := if input ∈ fs then removeFile input fs else fs
  temp_files.foldl (fun acc f => if f ∈ acc then removeFile f acc else acc) fs1

deriving instance DecidableEq for Except

/-- Outcome of a run: the value returned or exception re-raised, the final
local filesystem, and the external calls made. -/
structure RunOut where
  result : Except RunErr (List JEntry × String)
  fs : List String
  trace : List Ev
deriving DecidableEq

/-- Embedding of the body of `split_video` from the validation loop onward
(split.py lines 159-285).  Upstream steps — manifest download (modelled
separately as `load_video_json`), input download and the ffprobe duration
probe with its 86400 fallback — determine the parameters `file_duration`,
`entries0` (the loaded `video_splits`) and `fs0` (the local files present,
including `cfg.input`).  A `KeyError` from the validation loop and the
no-valid-segments `ValueError` are raised inside the `try`, so they run the
same cleanup as processing errors, with `temp_files` still empty. -/
def split_video (env : Env) (cfg : Cfg) (file_duration : Frac) (splits : List RawSplit)
    (entries0 : List JEntry) (fs0 : List String) : RunOut :=
  match validateSplits file_duration splits 0 with
  | .error k => ⟨.error (.keyError k), cleanupFs cfg.input [] fs0, []⟩
  | .ok [] => ⟨.error .noValidSegments, cleanupFs cfg.input [] fs0, []⟩
  | .ok (v :: vs) =>
    match processLoop env cfg (v :: vs) ⟨entries0, fs0, [], 0⟩ with
    | (st, evs, none) => ⟨.ok (st.entries, cfg.input), st.fs, evs⟩
    | (st, evs, some e) => ⟨.error e, cleanupFs cfg.input st.temp_files st.fs, evs⟩

/-- A JSON value, as produced by Python's `json.load`.  Objects keep their
key/value pairs in order; Python keeps the last duplicate key, but no claim
involves duplicate keys. -/
inductive Json where
  | null
  | bool (b : Bool)
  | num (q : Frac)
  | str (s : String)
  | arr (elems : List Json)
  | obj (fields : List (String × Json))

/-- Model of `dict.get` on a parsed JSON object. -/
def lookupField (fields : List (String × Json)) (key : String) : Option Json :=
  (fields.find? (fun p => p.1 == key)).map (fun p => p.2)

/-- Oracle outcomes for the manifest-loading collaborators: the status of
`requests.head` (`none` models a raised network error), whether
`download_file` succeeds, and the parsed JSON (`none` models an unreadable
file or malformed JSON). -/
structure LoadEnv where
  headStatus : Option Nat
  downloadOk : Bool
  readJson : Option Json

/-- Embedding of the manifest-loading block of split.py lines 79-126,
returning the `video_path` and `video_splits` values the run proceeds with
(`Json.null` models Python `None`, which is both the absent-key default and
a JSON null). -/
def load_video_json (env : LoadEnv) : Json × List Json :=
  match env.headStatus with
  | none => (Json.null, [])
  | some code =>
    if code = 200 then
      if env.downloadOk then
        match env.readJson with
        | some (Json.obj fields) =>
          let video_path := (lookupField fields "video_path").getD Json.null
          match (lookupField fields "video_splits").getD (Json.arr []) with
          | Json.arr xs => (video_path, xs)
          | _ => (video_path, [])
        | some _ => (Json.null, [])
        | none => (Json.null, [])
      else (Json.null, [])
    else (Json.null, [])

/-- Specification-side counterpart of `time_to_seconds`, written from the
spec's words: three accepted forms disambiguated by colon count — two
colons parse as hours:minutes:seconds, one colon as minutes:seconds, zero
colons as bare (possibly fractional) seconds — and any string whose
segments are non-numeric or whose shape matches none of the three (for
example three or more colons) is invalid. -/
def specTimeSeconds (cs : List Char) : Option Frac :=
  match splitCols cs with
  | [h, m, s] =>
    match parseIntChars h, parseIntChars m, parseFloatChars s with
    | some hv, some mv, some sv => some (Frac.add (Frac.ofInt (hv * 3600 + mv * 60)) sv)
    | _, _, _ => none
  | [m, s] =>
    match parseIntChars m, parseFloatChars s with
    | some mv, some sv => some (Frac.add (Frac.ofInt (mv * 60)) sv)
    | _, _ => none
  | [x] => parseFloatChars x
  | _ => none

/-- The 1-based indices of the encoder invocations recorded in a trace. -/
def encodeIndices (evs : List Ev) : List Nat :=
  evs.filterMap (fun e =>
    match e with
    | .encodeCall k _ => some k
    | _ => none)

/-- Shape of the traces the processing loop can produce, starting from a
given entry list: zero or more complete segment blocks (encode, segment
upload, then one manifest upload whose payload holds the input path and
exactly the entries accumulated so far including the new one), where a
failing manifest upload ends the trace, possibly ending in a partial block
cut short by a failed encode or upload.  Duplicate segments contribute no
events. -/
inductive SegTrace (cfg : Cfg) : List JEntry → List Ev → Prop
  | nil (es : List JEntry) : SegTrace cfg es []
  | encodeFail (es : List JEntry) (k : Nat) :
      SegTrace cfg es [.encodeCall k false]
  | uploadFail (es : List JEntry) (k : Nat) (p : String) :
      SegTrace cfg es [.encodeCall k true, .uploadSegCall k p none]
  | sortFail (es : List JEntry) (k : Nat) (p u : String) :
      SegTrace cfg es [.encodeCall k true, .uploadSegCall k p (some u)]
  | seg (es : List JEntry) (k : Nat) (p u : String) (m : Manifest) (r : Option String)
      (rest : List Ev) :
      m.video_path = some cfg.input →
      (∃ e : JEntry, e.split_index = some (k : Int) ∧ e.file_url = some u ∧
        m.video_splits.Perm (es ++ [e])) →
      (r = none → rest = []) →
      SegTrace cfg m.video_splits rest →
      SegTrace cfg es (.encodeCall k true :: .uploadSegCall k p (some u) ::
        .uploadManifestCall m r :: rest)

/-! Concrete fixtures used by witnesses and counterexamples. -/

/-- A sample run configuration. -/
def sampleCfg : Cfg := ⟨"/s/in.mp4", "/s", "j", ".mp4", "in.json"⟩

/-- Duration of 100 seconds. -/
def dur100 : Frac := Frac.ofInt 100

/-- Collaborators that always succeed; upload replies are distinct URLs. -/
def envAllOk : Env := ⟨fun _ => true, fun n _ => some ("u" ++ toString n)⟩

/-- Collaborators where the encoder succeeds but every upload returns a
falsy URL. -/
def envUploadNone : Env := ⟨fun _ => true, fun _ _ => none⟩

/-- Collaborators where only the first upload (the segment file) succeeds,
so the first manifest upload fails. -/
def envManifestFail : Env := ⟨fun _ => true, fun n _ => if n = 0 then some "u0" else none⟩

/-- A pre-existing manifest entry with index 2 and range 0:30-1:00. -/
def entrySecond : JEntry := ⟨some 2, some "u2", some "0:30", some "1:00"⟩

/-- A pre-existing manifest entry with index 1 and range 0:00-0:30. -/
def entryFirst : JEntry := ⟨some 1, some "u1", some "0:00", some "0:30"⟩

/-- A loading environment whose manifest JSON is an object carrying a
string video_path and a non-list video_splits. -/
def loadEnvBadSplits : LoadEnv :=
  ⟨some 200, true,
   some (Json.obj [("video_path", Json.str "/tmp/v.mp4"), ("video_splits", Json.num (Frac.ofInt 5))])⟩

/-! ## Soundness of the fraction encoding -/

/-- Cross-multiplication strict comparison agrees with the `ℚ` order when
both denominators are positive. -/
theorem Frac.lt_iff (a b : Frac) (ha : 0 < a.den) (hb : 0 < b.den) :
    Frac.lt a b ↔ a.toRat < b.toRat := by
  unfold Frac.lt Frac.toRat
  rw [div_lt_div_iff₀ (by exact_mod_cast ha) (by exact_mod_cast hb)]
  constructor
  · intro h; exact_mod_cast h
  · intro h; exact_mod_cast h

/-- Cross-multiplication non-strict comparison agrees with the `ℚ` order
when both denominators are positive. -/
theorem Frac.le_iff (a b : Frac) (ha : 0 < a.den) (hb : 0 < b.den) :
    Frac.le a b ↔ a.toRat ≤ b.toRat := by
  unfold Frac.le Frac.toRat
  rw [div_le_div_iff₀ (by exact_mod_cast ha) (by exact_mod_cast hb)]
  constructor
  · intro h; exact_mod_cast h
  · intro h; exact_mod_cast h

/-- Every fraction produced by the mantissa parser has a positive
denominator. -/
theorem parseMantissa_den_pos (cs : List Char) (f : Frac)
    (h : parseMantissa cs = some f) : 0 < f.den := by
  unfold parseMantissa at h
  split at h
  · dsimp only at h
    split at h
    · cases h; exact Nat.one_pos
    · cases h
  · dsimp only at h
    split at h
    · cases h
    · split at h
      · cases h; exact pow_pos (by norm_num) _
      · cases h

/-- Every fraction produced by the float parser has a positive
denominator. -/
theorem parseFloatChars_den_pos (cs : List Char) (f : Frac)
    (h : parseFloatChars cs = some f) : 0 < f.den := by
  unfold parseFloatChars at h
  rcases hsb : stripSign cs with ⟨neg, body⟩
  rw [hsb] at h
  dsimp only at h
  rw [Option.map_eq_some'] at h
  obtain ⟨v, hv, hfv⟩ := h
  have hvden : 0 < v.den := by
    split at hv
    · exact parseMantissa_den_pos _ _ hv
    · split at hv
      · cases hv
      · rcases hse : stripSign _ with ⟨eneg, edigits⟩
        rw [hse] at hv
        dsimp only at hv
        split at hv
        · cases hv
          split
          · rename_i mv hmv _ _
            show 0 < mv.den * 10 ^ digitsToNat edigits
            exact Nat.mul_pos (parseMantissa_den_pos _ _ hmv) (pow_pos (by norm_num) _)
          · rename_i mv hmv _ _
            show 0 < mv.den
            exact parseMantissa_den_pos _ _ hmv
        · cases hv
  subst hfv
  split
  · simpa [Frac.neg] using hvden
  · exact hvden

/-- Every time value produced by `time_to_seconds` has a positive
denominator, so the `Frac` comparisons the validator applies to such values
agree with the `ℚ` order. -/
theorem time_to_seconds_den_pos (t : String) (f : Frac)
    (h : time_to_seconds t = .ok f) : 0 < f.den := by
  unfold time_to_seconds at h
  split at h
  · split at h
    · rename_i hv mv sv hh hm hs
      cases h
      show 0 < 1 * sv.den
      simpa using parseFloatChars_den_pos _ sv hs
    · cases h
  · split at h
    · rename_i mv sv hm hs
      cases h
      show 0 < 1 * sv.den
      simpa using parseFloatChars_den_pos _ sv hs
    · cases h
  · split at h
    · rename_i v hv
      cases h
      exact parseFloatChars_den_pos _ _ hv
    · cases h


/-! ## The time parser (claim C5) -/

/-- The colon splitter never returns an empty part list (Python
`str.split` always yields at least one piece). -/
theorem splitCols_ne_nil (cs : List Char) : splitCols cs ≠ [] := by
  induction cs with
  | nil => simp [splitCols]
  | cons c cs ih =>
    unfold splitCols
    split
    · simp
    · split
      · simp
      · simp

/-- A one-part split result is the whole string. -/
theorem splitCols_singleton (cs x : List Char) (h : splitCols cs = [x]) : x = cs := by
  induction cs generalizing x with
  | nil =>
    unfold splitCols at h
    injection h with h1 h2
    exact h1.symm
  | cons c cs ih =>
    unfold splitCols at h
    split at h
    · injection h with h1 h2
      exact absurd h2 (splitCols_ne_nil cs)
    · split at h
      · rename_i heq
        exact absurd heq (splitCols_ne_nil cs)
      · rename_i p ps heq
        injection h with h1 h2
        subst h2
        rename_i hc
        rw [ih p heq] at h1
        rw [← h1]

/-- A split with at least two parts means the string contains a colon. -/
theorem colon_mem_of_splitCols (cs : List Char) (p q : List Char) (r : List (List Char))
    (h : splitCols cs = p :: q :: r) : ':' ∈ cs := by
  induction cs generalizing p q r with
  | nil =>
    unfold splitCols at h
    injection h with h1 h2
    cases h2
  | cons c cs ih =>
    unfold splitCols at h
    split at h
    · rename_i hc
      rw [hc]
      exact List.mem_cons_self _ _
    · split at h
      · injection h with h1 h2
        cases h2
      · rename_i p0 ps heq
        injection h with h1 h2
        subst h2
        exact List.mem_cons_of_mem _ (ih p0 q r heq)

/-- The first element surviving `dropWhile` falsifies the predicate. -/
theorem dropWhile_head_eq_false {α : Type} (p : α → Bool) (l : List α) (c : α) (rest : List α)
    (h : l.dropWhile p = c :: rest) : p c = false := by
  induction l with
  | nil => simp at h
  | cons a as ih =>
    rw [List.dropWhile_cons] at h
    split at h
    · exact ih h
    · rename_i hpa
      injection h with h1 h2
      subst h1
      simpa using hpa

/-- Stripping a sign never removes a colon. -/
theorem mem_stripSign (cs : List Char) (h : ':' ∈ cs) : ':' ∈ (stripSign cs).2 := by
  cases cs with
  | nil => simp at h
  | cons c r =>
    unfold stripSign
    rcases List.mem_cons.mp h with hc | hr
    · rw [← hc]
      simp
    · by_cases h1 : c = '-'
      · simp [h1, hr]
      · by_cases h2 : c = '+'
        · simp [h1, h2, hr]
        · simp [h1, h2, hr]

/-- A character list containing a colon is not all digits. -/
theorem all_isDigit_false_of_colon (l : List Char) (h : ':' ∈ l) :
    l.all Char.isDigit = false := by
  rw [Bool.eq_false_iff]
  intro hall
  have := List.all_eq_true.mp hall ':' h
  exact absurd this (by decide)

/-- A mantissa containing a colon never parses. -/
theorem parseMantissa_colon (cs : List Char) (h : ':' ∈ cs) : parseMantissa cs = none := by
  unfold parseMantissa
  cases hd : cs.dropWhile (fun c => c != '.') with
  | nil =>
    dsimp only
    have hip : ':' ∈ cs.takeWhile (fun c => c != '.') := by
      have hsp := List.takeWhile_append_dropWhile (p := fun c => c != '.') (l := cs)
      rw [hd, List.append_nil] at hsp
      rwa [hsp]
    simp [all_isDigit_false_of_colon _ hip]
  | cons c frac =>
    dsimp only
    have hsp := List.takeWhile_append_dropWhile (p := fun c => c != '.') (l := cs)
    rw [hd] at hsp
    rw [← hsp] at h
    rcases List.mem_append.mp h with hip | hcf
    · simp [all_isDigit_false_of_colon _ hip]
    · rcases List.mem_cons.mp hcf with hceq | hfrac
      · have hcfalse := dropWhile_head_eq_false _ _ _ _ hd
        rw [← hceq] at hcfalse
        simp at hcfalse
      · simp [all_isDigit_false_of_colon _ hfrac]

/-- A float literal containing a colon never parses, which is why the
source's fall-through call of `float(time_str)` on a string with three or
more colons always raises. -/
theorem parseFloatChars_colon (cs : List Char) (h : ':' ∈ cs) : parseFloatChars cs = none := by
  unfold parseFloatChars
  rcases hsb : stripSign cs with ⟨neg, body⟩
  have hb : ':' ∈ body := by
    have := mem_stripSign cs h
    rw [hsb] at this
    exact this
  dsimp only
  cases hd : body.dropWhile (fun c => c != 'e' && c != 'E') with
  | nil =>
    have hip : ':' ∈ body.takeWhile (fun c => c != 'e' && c != 'E') := by
      have hsp := List.takeWhile_append_dropWhile (p := fun c => c != 'e' && c != 'E') (l := body)
      rw [hd, List.append_nil] at hsp
      rwa [hsp]
    rw [parseMantissa_colon _ hip]
    rfl
  | cons c expPart =>
    have hsp := List.takeWhile_append_dropWhile (p := fun c => c != 'e' && c != 'E') (l := body)
    rw [hd] at hsp
    rw [← hsp] at hb
    rcases List.mem_append.mp hb with hip | hcf
    · rw [parseMantissa_colon _ hip]
      rfl
    · cases hm : parseMantissa (body.takeWhile (fun c => c != 'e' && c != 'E')) with
      | none => rfl
      | some mv =>
        rcases List.mem_cons.mp hcf with hceq | hexp
        · have hcfalse := dropWhile_head_eq_false _ _ _ _ hd
          rw [← hceq] at hcfalse
          simp at hcfalse
        · have hed : ':' ∈ (stripSign expPart).2 := mem_stripSign _ hexp
          rcases hse : stripSign expPart with ⟨eneg, edigits⟩
          rw [hse] at hed
          dsimp only
          rw [hse]
          dsimp only
          have := all_isDigit_false_of_colon _ hed
          simp [this]

/-- C5: for every input string, `time_to_seconds` returns
hours*3600 + minutes*60 + seconds for the two-colon form, minutes*60 +
seconds for the one-colon form, and the bare (possibly fractional) seconds
value for the colon-free form, and raises the invalid-time-format error on
every string whose segments are non-numeric or whose shape matches none of
the three forms — exactly the behaviour of the specification-side
`specTimeSeconds`. -/
theorem time_to_seconds_matches_spec (t : String) :
    time_to_seconds t =
      (match specTimeSeconds t.toList with
       | some v => .ok v
       | none => .error .invalidTimeFormat) := by
  unfold time_to_seconds specTimeSeconds
  cases hsc : splitCols t.toList with
  | nil => exact absurd hsc (splitCols_ne_nil _)
  | cons a tl =>
    cases tl with
    | nil =>
      have ha := splitCols_singleton _ _ hsc
      rw [ha]
    | cons b tl2 =>
      cases tl2 with
      | nil =>
        dsimp only
        cases parseIntChars a <;> cases parseFloatChars b <;> rfl
      | cons c tl3 =>
        cases tl3 with
        | nil =>
          dsimp only
          cases parseIntChars a <;> cases parseIntChars b <;> cases parseFloatChars c <;> rfl
        | cons d tl4 =>
          have hcol : ':' ∈ t.toList := colon_mem_of_splitCols _ _ _ _ hsc
          dsimp only
          rw [parseFloatChars_colon _ hcol]


/-! ## The planner (claims C3, C4) -/

/-- C3: a request with both keys present is accepted by the validation
loop, carrying clamped bounds (ss, es), exactly when both of its timestamp
strings parse, the parsed start is strictly below the parsed end before
clamping, and after clamping a negative start to 0 and an end beyond the
file duration to the duration the start is still strictly below the
end. -/
theorem planner_accepts_iff (file_duration : Frac) (s : RawSplit) (a b : String)
    (ha : s.start = some a) (hb : s.«end» = some b) (ss es : Frac) :
    processSplitEntry file_duration s = .ok (some (ss, es, a, b)) ↔
      (∃ sa sb, time_to_seconds a = .ok sa ∧ time_to_seconds b = .ok sb ∧
        Frac.lt sa sb ∧
        ss = (if Frac.lt sa (Frac.ofInt 0) then Frac.ofInt 0 else sa) ∧
        es = (if Frac.lt file_duration sb then file_duration else sb) ∧
        Frac.lt ss es) := by
  unfold processSplitEntry
  rw [ha]
  dsimp only
  cases hta : time_to_seconds a with
  | error e =>
    dsimp only
    constructor
    · intro h; injection h with h1; cases h1
    · rintro ⟨sa, sb, hsa, -⟩
      cases hsa
  | ok sa0 =>
    rw [hb]
    dsimp only
    cases htb : time_to_seconds b with
    | error e =>
      dsimp only
      constructor
      · intro h; injection h with h1; cases h1
      · rintro ⟨sa, sb, -, hsb, -⟩
        cases hsb
    | ok sb0 =>
      dsimp only
      by_cases hord : Frac.le sb0 sa0
      · rw [if_pos hord]
        constructor
        · intro h; injection h with h1; cases h1
        · rintro ⟨sa, sb, hsa, hsb, hlt, -⟩
          injection hsa with h1; subst h1
          injection hsb with h2; subst h2
          unfold Frac.lt at hlt
          unfold Frac.le at hord
          omega
      · rw [if_neg hord]
        have hlt0 : Frac.lt sa0 sb0 := by
          unfold Frac.lt
          unfold Frac.le at hord
          omega
        by_cases hlt2 : Frac.lt (if Frac.lt sa0 (Frac.ofInt 0) then Frac.ofInt 0 else sa0)
            (if Frac.lt file_duration sb0 then file_duration else sb0)
        · rw [if_pos hlt2]
          constructor
          · intro h
            simp only [Except.ok.injEq, Option.some.injEq, Prod.mk.injEq] at h
            obtain ⟨h1, h2, -, -⟩ := h
            exact ⟨sa0, sb0, rfl, rfl, hlt0, h1.symm, h2.symm, h1 ▸ h2 ▸ hlt2⟩
          · rintro ⟨sa, sb, hsa, hsb, hlt, hss, hes, hfin⟩
            injection hsa with h1; subst h1
            injection hsb with h2; subst h2
            rw [hss, hes]
        · rw [if_neg hlt2]
          constructor
          · intro h; injection h with h1; cases h1
          · rintro ⟨sa, sb, hsa, hsb, hlt, hss, hes, hfin⟩
            injection hsa with h1; subst h1
            injection hsb with h2; subst h2
            rw [hss, hes] at hfin
            exact absurd hfin hlt2

/-- Witness for C3, the spec's own example: with duration 100 the request
(start "-5", end "50") is accepted as the clamped segment (0, 50). -/
theorem planner_accepts_iff_witness :
    processSplitEntry dur100 ⟨some "-5", some "50"⟩ =
      .ok (some (Frac.ofInt 0, ⟨50, 1⟩, "-5", "50")) :=
  (planner_accepts_iff dur100 ⟨some "-5", some "50"⟩ "-5" "50" rfl rfl
      (Frac.ofInt 0) ⟨50, 1⟩).mpr
    ⟨⟨-5, 1⟩, ⟨50, 1⟩, by decide, by decide, by decide, by decide, by decide, by decide⟩


/-! ## Stepping the processing loop -/

/-- Exhaustive characterization of one iteration of the processing loop:
a duplicate is skipped with no effects; otherwise the iteration ends in
encoder failure, segment-upload failure, a sort `KeyError`, manifest-upload
failure, or full success followed by the loop on the remaining
segments. -/
theorem processLoop_cons (env : Env) (cfg : Cfg) (v : ValidSplit) (rest : List ValidSplit)
    (st : LoopSt) :
    (isDuplicate v.startRaw v.endRaw st.entries = true ∧
      processLoop env cfg (v :: rest) st = processLoop env cfg rest st) ∨
    (isDuplicate v.startRaw v.endRaw st.entries = false ∧ env.encode v.idx = false ∧
      processLoop env cfg (v :: rest) st =
        (st, [.encodeCall (v.idx + 1) false], some (.ffmpegError (v.idx + 1)))) ∨
    (isDuplicate v.startRaw v.endRaw st.entries = false ∧ env.encode v.idx = true ∧
      env.upload st.upCtr (outputFilename cfg v.idx) = none ∧
      processLoop env cfg (v :: rest) st =
        (⟨st.entries, insertFile (outputFilename cfg v.idx) st.fs, st.temp_files, st.upCtr + 1⟩,
         [.encodeCall (v.idx + 1) true,
          .uploadSegCall (v.idx + 1) (outputFilename cfg v.idx) none],
         some (.uploadFailed (v.idx + 1)))) ∨
    (∃ url e, isDuplicate v.startRaw v.endRaw st.entries = false ∧ env.encode v.idx = true ∧
      env.upload st.upCtr (outputFilename cfg v.idx) = some url ∧
      sortEntries (st.entries ++ [mkEntry v url]) = .error e ∧
      processLoop env cfg (v :: rest) st =
        (⟨st.entries ++ [mkEntry v url], insertFile (outputFilename cfg v.idx) st.fs,
          st.temp_files, st.upCtr + 1⟩,
         [.encodeCall (v.idx + 1) true,
          .uploadSegCall (v.idx + 1) (outputFilename cfg v.idx) (some url)],
         some e)) ∨
    (∃ url sorted, isDuplicate v.startRaw v.endRaw st.entries = false ∧
      env.encode v.idx = true ∧
      env.upload st.upCtr (outputFilename cfg v.idx) = some url ∧
      sortEntries (st.entries ++ [mkEntry v url]) = .ok sorted ∧
      env.upload (st.upCtr + 1) (manifestPath cfg) = none ∧
      processLoop env cfg (v :: rest) st =
        (⟨sorted, insertFile (manifestPath cfg) (insertFile (outputFilename cfg v.idx) st.fs),
          st.temp_files, st.upCtr + 2⟩,
         [.encodeCall (v.idx + 1) true,
          .uploadSegCall (v.idx + 1) (outputFilename cfg v.idx) (some url),
          .uploadManifestCall ⟨some cfg.input, sorted⟩ none],
         some .manifestUploadFailed)) ∨
    (∃ url sorted murl, isDuplicate v.startRaw v.endRaw st.entries = false ∧
      env.encode v.idx = true ∧
      env.upload st.upCtr (outputFilename cfg v.idx) = some url ∧
      sortEntries (st.entries ++ [mkEntry v url]) = .ok sorted ∧
      env.upload (st.upCtr + 1) (manifestPath cfg) = some murl ∧
      processLoop env cfg (v :: rest) st =
        ((processLoop env cfg rest (stepState cfg v sorted st)).1,
         .encodeCall (v.idx + 1) true ::
           .uploadSegCall (v.idx + 1) (outputFilename cfg v.idx) (some url) ::
           .uploadManifestCall ⟨some cfg.input, sorted⟩ (some murl) ::
           (processLoop env cfg rest (stepState cfg v sorted st)).2.1,
         (processLoop env cfg rest (stepState cfg v sorted st)).2.2)) := by
  by_cases hdup : isDuplicate v.startRaw v.endRaw st.entries
  · left
    refine ⟨hdup, ?_⟩
    simp only [processLoop]
    rw [if_pos hdup]
  · cases he : env.encode v.idx with
    | false =>
      right; left
      refine ⟨by simpa using hdup, rfl, ?_⟩
      simp only [processLoop]
      rw [if_neg hdup]
      simp [he]
    | true =>
      cases hu : env.upload st.upCtr (outputFilename cfg v.idx) with
      | none =>
        right; right; left
        refine ⟨by simpa using hdup, rfl, rfl, ?_⟩
        simp only [processLoop]
        rw [if_neg hdup]
        simp [he, hu]
      | some url =>
        cases hs : sortEntries (st.entries ++ [mkEntry v url]) with
        | error e =>
          right; right; right; left
          refine ⟨url, e, by simpa using hdup, rfl, rfl, hs, ?_⟩
          simp only [processLoop]
          rw [if_neg hdup]
          simp [he, hu, hs]
        | ok sorted =>
          cases hm : env.upload (st.upCtr + 1) (manifestPath cfg) with
          | none =>
            right; right; right; right; left
            refine ⟨url, sorted, by simpa using hdup, rfl, rfl, hs, rfl, ?_⟩
            simp only [processLoop]
            rw [if_neg hdup]
            simp [he, hu, hs, hm]
          | some murl =>
            right; right; right; right; right
            refine ⟨url, sorted, murl, by simpa using hdup, rfl, rfl, hs, rfl, ?_⟩
            simp only [processLoop]
            rw [if_neg hdup]
            simp [he, hu, hs, hm, stepState]


/-! ## Validation results and processing order (claims C4, C7) -/

/-- C4: when validation leaves zero valid segments, the run fails with the
no-valid-segments error before any external call: the trace is empty, so
no encode and no upload happened. -/
theorem no_valid_segments_aborts (env : Env) (cfg : Cfg) (d : Frac)
    (splits : List RawSplit) (entries0 : List JEntry) (fs0 : List String)
    (h : validateSplits d splits 0 = .ok []) :
    (split_video env cfg d splits entries0 fs0).result = .error .noValidSegments ∧
    (split_video env cfg d splits entries0 fs0).trace = [] := by
  unfold split_video
  rw [h]
  exact ⟨rfl, rfl⟩

/-- Witness for C4: a single inverted range (start 10, end 5) yields zero
valid segments, the error, and an empty trace. -/
theorem no_valid_segments_aborts_witness :
    (split_video envAllOk sampleCfg dur100 [⟨some "10", some "5"⟩] [] ["/s/in.mp4"]).result
        = .error .noValidSegments ∧
    (split_video envAllOk sampleCfg dur100 [⟨some "10", some "5"⟩] [] ["/s/in.mp4"]).trace = [] :=
  no_valid_segments_aborts envAllOk sampleCfg dur100 [⟨some "10", some "5"⟩] [] ["/s/in.mp4"]
    (by decide)

/-- Every accepted segment records the 0-based position of its request in
the original list (offset by the starting counter) and the exact outcome
of its validation. -/
theorem validateSplits_mem (d : Frac) :
    ∀ (splits : List RawSplit) (i : Nat) (vs : List ValidSplit),
      validateSplits d splits i = .ok vs → ∀ v ∈ vs,
        i ≤ v.idx ∧ ∃ s, splits[v.idx - i]? = some s ∧
          processSplitEntry d s = .ok (some (v.startSeconds, v.endSeconds, v.startRaw, v.endRaw)) := by
  intro splits
  induction splits with
  | nil =>
    intro i vs h v hv
    unfold validateSplits at h
    injection h with h1
    subst h1
    cases hv
  | cons s rest ih =>
    intro i vs h v hv
    unfold validateSplits at h
    cases hp : processSplitEntry d s with
    | error k => rw [hp] at h; cases h
    | ok r =>
      rw [hp] at h
      cases r with
      | none =>
        dsimp only at h
        obtain ⟨hle, s', hs', hps'⟩ := ih (i + 1) vs h v hv
        refine ⟨by omega, s', ?_, hps'⟩
        have hidx : v.idx - i = (v.idx - (i + 1)) + 1 := by omega
        rw [hidx, List.getElem?_cons_succ]
        exact hs'
      | some tup =>
        obtain ⟨ss, es, a, b⟩ := tup
        dsimp only at h
        cases hrec : validateSplits d rest (i + 1) with
        | error k => rw [hrec] at h; cases h
        | ok vs' =>
          rw [hrec] at h
          injection h with h1
          subst h1
          rcases List.mem_cons.mp hv with hhead | htail
          · subst hhead
            refine ⟨le_refl _, s, ?_, ?_⟩
            · simp
            · rw [hp]
          · obtain ⟨hle, s', hs', hps'⟩ := ih (i + 1) vs' hrec v htail
            refine ⟨by omega, s', ?_, hps'⟩
            have hidx : v.idx - i = (v.idx - (i + 1)) + 1 := by omega
            rw [hidx, List.getElem?_cons_succ]
            exact hs'

/-- Accepted segments carry indices bounded below by the loop counter and
strictly increasing along the list. -/
theorem validateSplits_idx_bound_pairwise (d : Frac) :
    ∀ (splits : List RawSplit) (i : Nat) (vs : List ValidSplit),
      validateSplits d splits i = .ok vs →
        (∀ v ∈ vs, i ≤ v.idx) ∧ List.Pairwise (fun u w => u.idx < w.idx) vs := by
  intro splits
  induction splits with
  | nil =>
    intro i vs h
    unfold validateSplits at h
    injection h with h1
    subst h1
    refine ⟨?_, List.Pairwise.nil⟩
    intro v hv
    cases hv
  | cons s rest ih =>
    intro i vs h
    unfold validateSplits at h
    cases hp : processSplitEntry d s with
    | error k => rw [hp] at h; cases h
    | ok r =>
      rw [hp] at h
      cases r with
      | none =>
        dsimp only at h
        obtain ⟨hb, hpw⟩ := ih (i + 1) vs h
        exact ⟨fun v hv => by have := hb v hv; omega, hpw⟩
      | some tup =>
        obtain ⟨ss, es, a, b⟩ := tup
        dsimp only at h
        cases hrec : validateSplits d rest (i + 1) with
        | error k => rw [hrec] at h; cases h
        | ok vs' =>
          rw [hrec] at h
          injection h with h1
          subst h1
          obtain ⟨hb, hpw⟩ := ih (i + 1) vs' hrec
          constructor
          · intro v hv
            rcases List.mem_cons.mp hv with hhead | htail
            · subst hhead; exact le_refl _
            · have := hb v htail; omega
          · exact List.Pairwise.cons (fun w hw => by have := hb w hw; simp; omega) hpw

/-- The 1-based encode indices appearing in a loop trace form a sublist of
the planned indices, in order. -/
theorem processLoop_encode_sublist (env : Env) (cfg : Cfg) :
    ∀ (vs : List ValidSplit) (st : LoopSt),
      List.Sublist (encodeIndices (processLoop env cfg vs st).2.1) (vs.map (fun v => v.idx + 1)) := by
  intro vs
  induction vs with
  | nil =>
    intro st
    simp [processLoop, encodeIndices]
  | cons v rest ih =>
    intro st
    rcases processLoop_cons env cfg v rest st with
      ⟨hdup, heq⟩ | ⟨h1, h2, heq⟩ | ⟨h1, h2, h3, heq⟩ | ⟨url, e, h1, h2, h3, h4, heq⟩ |
      ⟨url, sorted, h1, h2, h3, h4, h5, heq⟩ | ⟨url, sorted, murl, h1, h2, h3, h4, h5, heq⟩
    · rw [heq]
      exact List.Sublist.cons _ (ih st)
    · rw [heq]
      simp only [encodeIndices, List.filterMap_cons, List.filterMap_nil]
      exact List.cons_sublist_cons.mpr (List.nil_sublist _)
    · rw [heq]
      simp only [encodeIndices, List.filterMap_cons, List.filterMap_nil]
      exact List.cons_sublist_cons.mpr (List.nil_sublist _)
    · rw [heq]
      simp only [encodeIndices, List.filterMap_cons, List.filterMap_nil]
      exact List.cons_sublist_cons.mpr (List.nil_sublist _)
    · rw [heq]
      simp only [encodeIndices, List.filterMap_cons, List.filterMap_nil]
      exact List.cons_sublist_cons.mpr (List.nil_sublist _)
    · rw [heq]
      simp only [encodeIndices, List.filterMap_cons]
      exact List.cons_sublist_cons.mpr (ih (stepState cfg v sorted st))

/-- C7: every planned segment's 1-based split index equals its position in
the original request list (so skipped requests leave gaps), and the
encoder is invoked on planned non-duplicate segments in strictly ascending
index order — every encode in the trace belongs to a planned segment. -/
theorem split_index_stable_and_ascending
    (env : Env) (cfg : Cfg) (d : Frac) (splits : List RawSplit)
    (entries0 : List JEntry) (fs0 : List String) (vs : List ValidSplit)
    (hval : validateSplits d splits 0 = .ok vs) :
    (∀ v ∈ vs, ∃ s, splits[v.idx]? = some s ∧
       processSplitEntry d s = .ok (some (v.startSeconds, v.endSeconds, v.startRaw, v.endRaw))) ∧
    List.Pairwise (fun j k => j < k)
      (encodeIndices (split_video env cfg d splits entries0 fs0).trace) ∧
    (∀ k b, Ev.encodeCall k b ∈ (split_video env cfg d splits entries0 fs0).trace →
       ∃ v ∈ vs, k = v.idx + 1) := by
  have hpw := (validateSplits_idx_bound_pairwise d splits 0 vs hval).2
  refine ⟨?_, ?_, ?_⟩
  · intro v hv
    obtain ⟨hle, s, hs, hps⟩ := validateSplits_mem d splits 0 vs hval v hv
    rw [Nat.sub_zero] at hs
    exact ⟨s, hs, hps⟩
  · unfold split_video
    rw [hval]
    cases vs with
    | nil => simp [encodeIndices]
    | cons v rest =>
      dsimp only
      have hsub := processLoop_encode_sublist env cfg (v :: rest) ⟨entries0, fs0, [], 0⟩
      rcases hloop : processLoop env cfg (v :: rest) ⟨entries0, fs0, [], 0⟩ with ⟨st2, evs, err⟩
      rw [hloop] at hsub
      have hmap : List.Pairwise (fun j k => j < k) ((v :: rest).map (fun w => w.idx + 1)) := by
        rw [List.pairwise_map]
        exact hpw.imp (by omega)
      cases err with
      | none => exact List.Pairwise.sublist hsub hmap
      | some e => exact List.Pairwise.sublist hsub hmap
  · unfold split_video
    rw [hval]
    cases vs with
    | nil =>
      intro k b hmem
      simp at hmem
    | cons v rest =>
      dsimp only
      have hsub := processLoop_encode_sublist env cfg (v :: rest) ⟨entries0, fs0, [], 0⟩
      rcases hloop : processLoop env cfg (v :: rest) ⟨entries0, fs0, [], 0⟩ with ⟨st2, evs, err⟩
      rw [hloop] at hsub
      have hmem2 : ∀ k b, Ev.encodeCall k b ∈ evs → ∃ w ∈ v :: rest, k = w.idx + 1 := by
        intro k b hmem
        have hk : k ∈ encodeIndices evs := by
          simp only [encodeIndices, List.mem_filterMap]
          exact ⟨Ev.encodeCall k b, hmem, rfl⟩
        have hmm := hsub.subset hk
        rw [List.mem_map] at hmm
        obtain ⟨w, hw, hwk⟩ := hmm
        exact ⟨w, hw, hwk.symm⟩
      cases err with
      | none => exact hmem2
      | some e => exact hmem2

/-- Witness for C7: with an invalid first request and a valid second one,
the surviving segment keeps index 1 (0-based), the encode trace is
ascending, and every encode index is planned. -/
theorem split_index_stable_and_ascending_witness :
    (∀ v ∈ ([⟨1, ⟨0, 1⟩, ⟨10, 1⟩, "0", "10"⟩] : List ValidSplit), ∃ s,
       [(⟨some "5", some "3"⟩ : RawSplit), ⟨some "0", some "10"⟩][v.idx]? = some s ∧
       processSplitEntry dur100 s =
         .ok (some (v.startSeconds, v.endSeconds, v.startRaw, v.endRaw))) ∧
    List.Pairwise (fun j k => j < k) (encodeIndices (split_video envAllOk sampleCfg dur100
        [⟨some "5", some "3"⟩, ⟨some "0", some "10"⟩] [] ["/s/in.mp4"]).trace) ∧
    (∀ k b, Ev.encodeCall k b ∈ (split_video envAllOk sampleCfg dur100
        [⟨some "5", some "3"⟩, ⟨some "0", some "10"⟩] [] ["/s/in.mp4"]).trace →
       ∃ v ∈ ([⟨1, ⟨0, 1⟩, ⟨10, 1⟩, "0", "10"⟩] : List ValidSplit), k = v.idx + 1) :=
  split_index_stable_and_ascending envAllOk sampleCfg dur100
    [⟨some "5", some "3"⟩, ⟨some "0", some "10"⟩] [] ["/s/in.mp4"]
    [⟨1, ⟨0, 1⟩, ⟨10, 1⟩, "0", "10"⟩] (by decide)


/-! ## Manifest ordering (claim C8) -/

/-- A successful sort yields a list ascending by split index. -/
theorem sortEntries_pairwise (l l' : List JEntry) (h : sortEntries l = .ok l') :
    List.Pairwise entryLE l' := by
  unfold sortEntries at h
  split at h
  · injection h with h1
    subst h1
    exact List.sorted_insertionSort entryLE l
  · cases h

/-- A successful sort permutes the input list. -/
theorem sortEntries_perm (l l' : List JEntry) (h : sortEntries l = .ok l') : l'.Perm l := by
  unfold sortEntries at h
  split at h
  · injection h with h1
    subst h1
    exact List.perm_insertionSort entryLE l
  · cases h

/-- Loop invariant for ordering: every manifest payload uploaded during
the loop is sorted ascending by split index, and a loop that ends without
error either leaves the entry list untouched (all segments duplicates) or
sorted. -/
theorem processLoop_manifest_sorted (env : Env) (cfg : Cfg) :
    ∀ (vs : List ValidSplit) (st : LoopSt),
      (∀ m r, Ev.uploadManifestCall m r ∈ (processLoop env cfg vs st).2.1 →
          List.Pairwise entryLE m.video_splits) ∧
      ((processLoop env cfg vs st).2.2 = none →
          (processLoop env cfg vs st).1.entries = st.entries ∨
            List.Pairwise entryLE (processLoop env cfg vs st).1.entries) := by
  intro vs
  induction vs with
  | nil =>
    intro st
    constructor
    · intro m r hm
      simp [processLoop] at hm
    · intro _
      left
      rfl
  | cons v rest ih =>
    intro st
    rcases processLoop_cons env cfg v rest st with
      ⟨hdup, heq⟩ | ⟨h1, h2, heq⟩ | ⟨h1, h2, h3, heq⟩ | ⟨url, e, h1, h2, h3, h4, heq⟩ |
      ⟨url, sorted, h1, h2, h3, h4, h5, heq⟩ | ⟨url, sorted, murl, h1, h2, h3, h4, h5, heq⟩
    · rw [heq]
      exact ih st
    · rw [heq]
      constructor
      · intro m r hm
        simp at hm
      · intro hc
        cases hc
    · rw [heq]
      constructor
      · intro m r hm
        simp at hm
      · intro hc
        cases hc
    · rw [heq]
      constructor
      · intro m r hm
        simp at hm
      · intro hc
        cases hc
    · rw [heq]
      constructor
      · intro m r hm
        simp at hm
        obtain ⟨hm1, -⟩ := hm
        subst hm1
        exact sortEntries_pairwise _ _ h4
      · intro hc
        cases hc
    · rw [heq]
      constructor
      · intro m r hm
        rcases List.mem_cons.mp hm with hh | hm2
        · cases hh
        rcases List.mem_cons.mp hm2 with hh | hm3
        · cases hh
        rcases List.mem_cons.mp hm3 with hh | hm4
        · injection hh with hh1 hh2
          subst hh1
          exact sortEntries_pairwise _ _ h4
        · exact (ih (stepState cfg v sorted st)).1 m r hm4
      · intro hc
        rcases (ih (stepState cfg v sorted st)).2 hc with hsame | hsorted
        · right
          rw [hsame]
          exact sortEntries_pairwise _ _ h4
        · right
          exact hsorted

/-- C8 (amended): after every append the entry list is re-sorted, so every
manifest uploaded during the run is sorted ascending by split index, and
the list returned by a successful run is sorted — except that a run which
appends nothing (every planned segment a duplicate) returns the loaded
list in its original order. -/
theorem manifest_sorted_after_append (env : Env) (cfg : Cfg) (d : Frac)
    (splits : List RawSplit) (entries0 : List JEntry) (fs0 : List String) :
    (∀ m r, Ev.uploadManifestCall m r ∈ (split_video env cfg d splits entries0 fs0).trace →
        List.Pairwise entryLE m.video_splits) ∧
    (∀ out p, (split_video env cfg d splits entries0 fs0).result = .ok (out, p) →
        List.Pairwise entryLE out ∨ out = entries0) := by
  unfold split_video
  cases hval : validateSplits d splits 0 with
  | error k =>
    constructor
    · intro m r hm
      simp at hm
    · intro out p hout
      cases hout
  | ok vs =>
    cases vs with
    | nil =>
      constructor
      · intro m r hm
        simp at hm
      · intro out p hout
        cases hout
    | cons v rest =>
      dsimp only
      have hlem := processLoop_manifest_sorted env cfg (v :: rest) ⟨entries0, fs0, [], 0⟩
      rcases hloop : processLoop env cfg (v :: rest) ⟨entries0, fs0, [], 0⟩ with ⟨st2, evs, err⟩
      rw [hloop] at hlem
      cases err with
      | none =>
        constructor
        · intro m r hm
          exact hlem.1 m r hm
        · intro out p hout
          injection hout with h1
          injection h1 with h2 h3
          subst h2
          rcases hlem.2 rfl with hsame | hsorted
          · right
            exact hsame
          · left
            exact hsorted
      | some e =>
        constructor
        · intro m r hm
          exact hlem.1 m r hm
        · intro out p hout
          cases hout

/-- Counterexample to C8 as stated: loading a manifest whose entries are
out of order (indices 2 then 1) and requesting only a duplicate of an
existing range yields a successful run that returns the entries still
unsorted — the sort runs only after an append, and no append happens. -/
theorem manifest_unsorted_when_all_duplicates :
    (split_video envAllOk sampleCfg dur100 [⟨some "0:30", some "1:00"⟩]
        [entrySecond, entryFirst] ["/s/in.mp4"]).result
      = .ok ([entrySecond, entryFirst], "/s/in.mp4") ∧
    ¬ List.Pairwise entryLE [entrySecond, entryFirst] :=
  ⟨by decide, by decide⟩

/-- Witness for the amended C8: a successful single-segment run returns a
sorted list (the left disjunct holds). -/
theorem manifest_sorted_after_append_witness :
    List.Pairwise entryLE [(⟨some 1, some "u0", some "0", some "10"⟩ : JEntry)] ∨
      [(⟨some 1, some "u0", some "0", some "10"⟩ : JEntry)] = ([] : List JEntry) :=
  (manifest_sorted_after_append envAllOk sampleCfg dur100 [⟨some "0", some "10"⟩] []
      ["/s/in.mp4"]).2
    [⟨some 1, some "u0", some "0", some "10"⟩] "/s/in.mp4" (by decide)


/-! ## Per-segment manifest durability (claim C9) -/

/-- The trace of the processing loop has the `SegTrace` block shape from
any starting entry list. -/
theorem processLoop_segtrace (env : Env) (cfg : Cfg) :
    ∀ (vs : List ValidSplit) (st : LoopSt),
      SegTrace cfg st.entries (processLoop env cfg vs st).2.1 := by
  intro vs
  induction vs with
  | nil =>
    intro st
    simp only [processLoop]
    exact SegTrace.nil _
  | cons v rest ih =>
    intro st
    rcases processLoop_cons env cfg v rest st with
      ⟨hdup, heq⟩ | ⟨h1, h2, heq⟩ | ⟨h1, h2, h3, heq⟩ | ⟨url, e, h1, h2, h3, h4, heq⟩ |
      ⟨url, sorted, h1, h2, h3, h4, h5, heq⟩ | ⟨url, sorted, murl, h1, h2, h3, h4, h5, heq⟩
    · rw [heq]
      exact ih st
    · rw [heq]
      exact SegTrace.encodeFail _ _
    · rw [heq]
      exact SegTrace.uploadFail _ _ _
    · rw [heq]
      exact SegTrace.sortFail _ _ _ _
    · rw [heq]
      refine SegTrace.seg st.entries (v.idx + 1) _ url ⟨some cfg.input, sorted⟩ none [] rfl
        ⟨mkEntry v url, ?_, rfl, ?_⟩ (fun _ => rfl) (SegTrace.nil _)
      · simp [mkEntry]
      · exact sortEntries_perm _ _ h4
    · rw [heq]
      refine SegTrace.seg st.entries (v.idx + 1) _ url ⟨some cfg.input, sorted⟩ (some murl) _ rfl
        ⟨mkEntry v url, ?_, rfl, ?_⟩ (fun h => by cases h) ?_
      · simp [mkEntry]
      · exact sortEntries_perm _ _ h4
      · exact ih (stepState cfg v sorted st)

/-- A manifest upload answered with no URL is the run's last event and
forces the manifest-upload-failed error. -/
theorem processLoop_manifest_none (env : Env) (cfg : Cfg) :
    ∀ (vs : List ValidSplit) (st : LoopSt) (m : Manifest),
      Ev.uploadManifestCall m none ∈ (processLoop env cfg vs st).2.1 →
      (processLoop env cfg vs st).2.2 = some .manifestUploadFailed := by
  intro vs
  induction vs with
  | nil =>
    intro st m hm
    simp [processLoop] at hm
  | cons v rest ih =>
    intro st m hm
    rcases processLoop_cons env cfg v rest st with
      ⟨hdup, heq⟩ | ⟨h1, h2, heq⟩ | ⟨h1, h2, h3, heq⟩ | ⟨url, e, h1, h2, h3, h4, heq⟩ |
      ⟨url, sorted, h1, h2, h3, h4, h5, heq⟩ | ⟨url, sorted, murl, h1, h2, h3, h4, h5, heq⟩
    · rw [heq] at hm ⊢
      exact ih st m hm
    · rw [heq] at hm
      simp at hm
    · rw [heq] at hm
      simp at hm
    · rw [heq] at hm
      simp at hm
    · rw [heq]
    · rw [heq] at hm ⊢
      rcases List.mem_cons.mp hm with hh | hm2
      · cases hh
      · rcases List.mem_cons.mp hm2 with hh | hm3
        · cases hh
        · rcases List.mem_cons.mp hm3 with hh | hm4
          · injection hh with hh1 hh2
            cases hh2
          · exact ih (stepState cfg v sorted st) m hm4

/-- C9: after every successfully encoded and uploaded segment the manifest
— holding the resolved input path and exactly the entries produced so far,
the new one included — is serialized and uploaded before the next segment
is touched (the run's trace is a `SegTrace` from the loaded entries), and
a manifest upload returning no URL aborts the run with the
manifest-upload-failed error. -/
theorem manifest_uploaded_per_segment (env : Env) (cfg : Cfg) (d : Frac)
    (splits : List RawSplit) (entries0 : List JEntry) (fs0 : List String) :
    SegTrace cfg entries0 (split_video env cfg d splits entries0 fs0).trace ∧
    (∀ m, Ev.uploadManifestCall m none ∈ (split_video env cfg d splits entries0 fs0).trace →
      (split_video env cfg d splits entries0 fs0).result = .error .manifestUploadFailed) := by
  unfold split_video
  cases hval : validateSplits d splits 0 with
  | error k =>
    constructor
    · exact SegTrace.nil _
    · intro m hm
      simp at hm
  | ok vs =>
    cases vs with
    | nil =>
      constructor
      · exact SegTrace.nil _
      · intro m hm
        simp at hm
    | cons v rest =>
      dsimp only
      have htr := processLoop_segtrace env cfg (v :: rest) ⟨entries0, fs0, [], 0⟩
      have hmn := processLoop_manifest_none env cfg (v :: rest) ⟨entries0, fs0, [], 0⟩
      rcases hloop : processLoop env cfg (v :: rest) ⟨entries0, fs0, [], 0⟩ with ⟨st2, evs, err⟩
      rw [hloop] at htr hmn
      cases err with
      | none =>
        constructor
        · exact htr
        · intro m hm
          have := hmn m hm
          cases this
      | some e =>
        constructor
        · exact htr
        · intro m hm
          have he := hmn m hm
          injection he with he1
          rw [he1]

/-- Witness for C9: when the first manifest upload returns no URL, the run
aborts with the manifest-upload-failed error. -/
theorem manifest_uploaded_per_segment_witness :
    (split_video envManifestFail sampleCfg dur100 [⟨some "0", some "10"⟩] []
        ["/s/in.mp4"]).result = .error .manifestUploadFailed :=
  (manifest_uploaded_per_segment envManifestFail sampleCfg dur100 [⟨some "0", some "10"⟩] []
      ["/s/in.mp4"]).2
    ⟨some "/s/in.mp4", [⟨some 1, some "u0", some "0", some "10"⟩]⟩ (by decide)


/-! ## Duplicate suppression (claim C2) -/

/-- Strictly increasing indices identify each planned segment uniquely. -/
theorem pairwise_idx_unique (vs : List ValidSplit)
    (hp : List.Pairwise (fun u w => u.idx < w.idx) vs) :
    ∀ v ∈ vs, ∀ w ∈ vs, v.idx = w.idx → v = w := by
  induction vs with
  | nil =>
    intro v hv
    cases hv
  | cons x xs ih =>
    cases hp with
    | cons hx hxs =>
      intro v hv w hw heq
      rcases List.mem_cons.mp hv with hv1 | hv2
      · rcases List.mem_cons.mp hw with hw1 | hw2
        · rw [hv1, hw1]
        · subst hv1
          have := hx w hw2
          omega
      · rcases List.mem_cons.mp hw with hw1 | hw2
        · subst hw1
          have := hx v hv2
          omega
        · exact ih hxs v hv2 w hw2 heq

/-- A segment that passes the duplicate check has a raw range different
from every range counted in the entry list. -/
theorem not_pair_of_not_dup (a b : String) (entries : List JEntry)
    (hpos : 0 < entries.countP (matchesRange a b)) (v : ValidSplit)
    (h1 : isDuplicate v.startRaw v.endRaw entries = false) :
    ¬(v.startRaw = a ∧ v.endRaw = b) := by
  rintro ⟨hpa, hpb⟩
  subst hpa
  subst hpb
  rw [List.countP_pos_iff] at hpos
  obtain ⟨e0, he0, hpe0⟩ := hpos
  have hdup : isDuplicate v.startRaw v.endRaw entries = true := by
    unfold isDuplicate
    rw [List.any_eq_true]
    exact ⟨e0, he0, hpe0⟩
  rw [h1] at hdup
  cases hdup

/-- The entry appended for a non-duplicate segment never matches the
tracked range. -/
theorem matchesRange_mkEntry_false (a b : String) (v : ValidSplit) (url : String)
    (hpair : ¬(v.startRaw = a ∧ v.endRaw = b)) :
    matchesRange a b (mkEntry v url) = false := by
  unfold matchesRange mkEntry
  by_cases hA : a = v.startRaw
  · by_cases hB : b = v.endRaw
    · exact absurd ⟨hA.symm, hB.symm⟩ hpair
    · simp [hB]
  · simp [hA]

/-- Loop invariant for duplicate suppression: if the tracked range is
present in the live entry list and every planned segment with the tracked
index carries the tracked raw strings, then the loop preserves the number
of entries with that range and never encodes or uploads a segment with the
tracked index. -/
theorem processLoop_dup_preserved (env : Env) (cfg : Cfg) (a b : String) (j : Nat) :
    ∀ (vs : List ValidSplit) (st : LoopSt),
      0 < st.entries.countP (matchesRange a b) →
      (∀ w ∈ vs, w.idx = j → w.startRaw = a ∧ w.endRaw = b) →
      (processLoop env cfg vs st).1.entries.countP (matchesRange a b)
          = st.entries.countP (matchesRange a b) ∧
      (∀ ok, Ev.encodeCall (j + 1) ok ∉ (processLoop env cfg vs st).2.1) ∧
      (∀ q r, Ev.uploadSegCall (j + 1) q r ∉ (processLoop env cfg vs st).2.1) := by
  intro vs
  induction vs with
  | nil =>
    intro st hpos hall
    refine ⟨rfl, ?_, ?_⟩
    · intro ok hmem
      simp [processLoop] at hmem
    · intro q r hmem
      simp [processLoop] at hmem
  | cons v rest ih =>
    intro st hpos hall
    have hallrest : ∀ w ∈ rest, w.idx = j → w.startRaw = a ∧ w.endRaw = b :=
      fun w hw => hall w (List.mem_cons_of_mem _ hw)
    rcases processLoop_cons env cfg v rest st with
      ⟨hdup, heq⟩ | ⟨h1, h2, heq⟩ | ⟨h1, h2, h3, heq⟩ | ⟨url, e, h1, h2, h3, h4, heq⟩ |
      ⟨url, sorted, h1, h2, h3, h4, h5, heq⟩ | ⟨url, sorted, murl, h1, h2, h3, h4, h5, heq⟩
    · rw [heq]
      exact ih st hpos hallrest
    · rw [heq]
      have hvj : v.idx ≠ j := fun hj =>
        not_pair_of_not_dup a b st.entries hpos v h1 (hall v (List.mem_cons_self _ _) hj)
      refine ⟨rfl, ?_, ?_⟩
      · intro ok hmem
        rcases List.mem_cons.mp hmem with hh | hm2
        · injection hh with hh1
          omega
        · cases hm2
      · intro q r hmem
        rcases List.mem_cons.mp hmem with hh | hm2
        · cases hh
        · cases hm2
    · rw [heq]
      have hvj : v.idx ≠ j := fun hj =>
        not_pair_of_not_dup a b st.entries hpos v h1 (hall v (List.mem_cons_self _ _) hj)
      refine ⟨rfl, ?_, ?_⟩
      · intro ok hmem
        rcases List.mem_cons.mp hmem with hh | hm2
        · injection hh with hh1
          omega
        · rcases List.mem_cons.mp hm2 with hh | hm3
          · cases hh
          · cases hm3
      · intro q r hmem
        rcases List.mem_cons.mp hmem with hh | hm2
        · cases hh
        · rcases List.mem_cons.mp hm2 with hh | hm3
          · injection hh with hh1
            omega
          · cases hm3
    · rw [heq]
      have hpair := not_pair_of_not_dup a b st.entries hpos v h1
      have hvj : v.idx ≠ j := fun hj => hpair (hall v (List.mem_cons_self _ _) hj)
      refine ⟨?_, ?_, ?_⟩
      · show (st.entries ++ [mkEntry v url]).countP (matchesRange a b)
            = st.entries.countP (matchesRange a b)
        rw [List.countP_append]
        simp [matchesRange_mkEntry_false a b v url hpair, List.countP_cons]
      · intro ok hmem
        rcases List.mem_cons.mp hmem with hh | hm2
        · injection hh with hh1
          omega
        · rcases List.mem_cons.mp hm2 with hh | hm3
          · cases hh
          · cases hm3
      · intro q r hmem
        rcases List.mem_cons.mp hmem with hh | hm2
        · cases hh
        · rcases List.mem_cons.mp hm2 with hh | hm3
          · injection hh with hh1
            omega
          · cases hm3
    · rw [heq]
      have hpair := not_pair_of_not_dup a b st.entries hpos v h1
      have hvj : v.idx ≠ j := fun hj => hpair (hall v (List.mem_cons_self _ _) hj)
      refine ⟨?_, ?_, ?_⟩
      · show sorted.countP (matchesRange a b) = st.entries.countP (matchesRange a b)
        rw [(sortEntries_perm _ _ h4).countP_eq, List.countP_append]
        simp [matchesRange_mkEntry_false a b v url hpair, List.countP_cons]
      · intro ok hmem
        rcases List.mem_cons.mp hmem with hh | hm2
        · injection hh with hh1
          omega
        · rcases List.mem_cons.mp hm2 with hh | hm3
          · cases hh
          · rcases List.mem_cons.mp hm3 with hh | hm4
            · cases hh
            · cases hm4
      · intro q r hmem
        rcases List.mem_cons.mp hmem with hh | hm2
        · cases hh
        · rcases List.mem_cons.mp hm2 with hh | hm3
          · injection hh with hh1
            omega
          · rcases List.mem_cons.mp hm3 with hh | hm4
            · cases hh
            · cases hm4
    · rw [heq]
      have hpair := not_pair_of_not_dup a b st.entries hpos v h1
      have hvj : v.idx ≠ j := fun hj => hpair (hall v (List.mem_cons_self _ _) hj)
      have hcnt : sorted.countP (matchesRange a b) = st.entries.countP (matchesRange a b) := by
        rw [(sortEntries_perm _ _ h4).countP_eq, List.countP_append]
        simp [matchesRange_mkEntry_false a b v url hpair, List.countP_cons]
      have hpos2 : 0 < sorted.countP (matchesRange a b) := by
        rw [hcnt]
        exact hpos
      obtain ⟨ihc, ihe, ihu⟩ := ih (stepState cfg v sorted st) hpos2 hallrest
      refine ⟨?_, ?_, ?_⟩
      · rw [ihc]
        exact hcnt
      · intro ok hmem
        rcases List.mem_cons.mp hmem with hh | hm2
        · injection hh with hh1
          omega
        · rcases List.mem_cons.mp hm2 with hh | hm3
          · cases hh
          · rcases List.mem_cons.mp hm3 with hh | hm4
            · cases hh
            · exact ihe ok hm4
      · intro q r hmem
        rcases List.mem_cons.mp hmem with hh | hm2
        · cases hh
        · rcases List.mem_cons.mp hm2 with hh | hm3
          · injection hh with hh1
            omega
          · rcases List.mem_cons.mp hm3 with hh | hm4
            · cases hh
            · exact ihu q r hm4

/-- C2: when a pre-existing manifest entry carries exactly the raw start
and end strings of a planned segment (exactly once), a successful run
never invokes the encoder or the segment upload for that segment's index,
appends no entry for that range, and returns a manifest holding exactly
one entry with that range. -/
theorem duplicate_range_skipped (env : Env) (cfg : Cfg) (d : Frac)
    (splits : List RawSplit) (entries0 : List JEntry) (fs0 : List String)
    (vs : List ValidSplit) (v : ValidSplit)
    (hval : validateSplits d splits 0 = .ok vs) (hv : v ∈ vs)
    (hcount : entries0.countP (matchesRange v.startRaw v.endRaw) = 1)
    (out : List JEntry) (p : String)
    (hok : (split_video env cfg d splits entries0 fs0).result = .ok (out, p)) :
    (∀ ok, Ev.encodeCall (v.idx + 1) ok ∉ (split_video env cfg d splits entries0 fs0).trace) ∧
    (∀ q r, Ev.uploadSegCall (v.idx + 1) q r
        ∉ (split_video env cfg d splits entries0 fs0).trace) ∧
    out.countP (matchesRange v.startRaw v.endRaw) = 1 := by
  have huniq := pairwise_idx_unique vs (validateSplits_idx_bound_pairwise d splits 0 vs hval).2
  have hall : ∀ w ∈ vs, w.idx = v.idx → w.startRaw = v.startRaw ∧ w.endRaw = v.endRaw := by
    intro w hw hidx
    have := huniq w hw v hv hidx
    rw [this]
    exact ⟨rfl, rfl⟩
  unfold split_video at hok ⊢
  rw [hval] at hok ⊢
  cases vs with
  | nil => cases hok
  | cons v0 rest =>
    dsimp only at hok ⊢
    have hlem := processLoop_dup_preserved env cfg v.startRaw v.endRaw v.idx (v0 :: rest)
      ⟨entries0, fs0, [], 0⟩ (by rw [hcount]; exact Nat.one_pos) hall
    rcases hloop : processLoop env cfg (v0 :: rest) ⟨entries0, fs0, [], 0⟩ with ⟨st2, evs, err⟩
    rw [hloop] at hok hlem
    cases err with
    | none =>
      injection hok with h1
      injection h1 with h2 h3
      subst h2
      exact ⟨hlem.2.1, hlem.2.2, by rw [hlem.1]; exact hcount⟩
    | some e => cases hok

/-- Witness for C2, the spec's own example: with an existing entry for
range 0:00-0:30 and an identical request, the run encodes nothing, uploads
nothing, and returns the single pre-existing entry. -/
theorem duplicate_range_skipped_witness :
    (∀ ok, Ev.encodeCall 1 ok ∉ (split_video envAllOk sampleCfg dur100
        [⟨some "0:00", some "0:30"⟩] [entryFirst] ["/s/in.mp4"]).trace) ∧
    (∀ q r, Ev.uploadSegCall 1 q r ∉ (split_video envAllOk sampleCfg dur100
        [⟨some "0:00", some "0:30"⟩] [entryFirst] ["/s/in.mp4"]).trace) ∧
    List.countP (matchesRange "0:00" "0:30") [entryFirst] = 1 :=
  duplicate_range_skipped envAllOk sampleCfg dur100 [⟨some "0:00", some "0:30"⟩] [entryFirst]
    ["/s/in.mp4"] [⟨0, ⟨0, 1⟩, ⟨30, 1⟩, "0:00", "0:30"⟩] ⟨0, ⟨0, 1⟩, ⟨30, 1⟩, "0:00", "0:30"⟩
    (by decide) (by decide) (by decide) [entryFirst] "/s/in.mp4" (by decide)


/-! ## KeyError propagation (claim C10) and failure cleanup (claims C1, C6) -/

/-- Reaching a request that lacks its start key — or lacks its end key
while its start string parses — makes the validation loop raise a
`KeyError` (the earliest such request wins). -/
theorem validateSplits_keyerror (d : Frac) :
    ∀ (splits : List RawSplit) (i j : Nat) (s : RawSplit),
      splits[j]? = some s →
      (s.start = none ∨
        (∃ a f, s.start = some a ∧ time_to_seconds a = .ok f ∧ s.«end» = none)) →
      ∃ k, validateSplits d splits i = .error k := by
  intro splits
  induction splits with
  | nil =>
    intro i j s hj hmiss
    simp at hj
  | cons s0 rest ih =>
    intro i j s hj hmiss
    cases j with
    | zero =>
      rw [List.getElem?_cons_zero] at hj
      injection hj with hj1
      subst hj1
      unfold validateSplits
      rcases hmiss with hs | ⟨a, f, hsa, hta, hse⟩
      · have hp : processSplitEntry d s0 = .error "start" := by
          unfold processSplitEntry
          rw [hs]
        rw [hp]
        exact ⟨"start", rfl⟩
      · have hp : processSplitEntry d s0 = .error "end" := by
          unfold processSplitEntry
          rw [hsa]
          dsimp only
          rw [hta]
          dsimp only
          rw [hse]
        rw [hp]
        exact ⟨"end", rfl⟩
    | succ j2 =>
      rw [List.getElem?_cons_succ] at hj
      unfold validateSplits
      cases hp : processSplitEntry d s0 with
      | error k =>
        exact ⟨k, rfl⟩
      | ok r =>
        cases r with
        | none => exact ih (i + 1) j2 s hj hmiss
        | some tup =>
          obtain ⟨ss, es, a, b⟩ := tup
          dsimp only
          obtain ⟨k, hk⟩ := ih (i + 1) j2 s hj hmiss
          rw [hk]
          exact ⟨k, rfl⟩

/-- C10 (amended): a request lacking its start key, or lacking its end key
while its start string parses, aborts the entire run with a `KeyError`
before any encode or upload, after the cleanup path (which removes the
input file, `temp_files` being still empty). -/
theorem missing_key_aborts (env : Env) (cfg : Cfg) (d : Frac)
    (splits : List RawSplit) (entries0 : List JEntry) (fs0 : List String)
    (j : Nat) (s : RawSplit) (hj : splits[j]? = some s)
    (hmiss : s.start = none ∨
      (∃ a f, s.start = some a ∧ time_to_seconds a = .ok f ∧ s.«end» = none)) :
    ∃ k, (split_video env cfg d splits entries0 fs0).result = .error (.keyError k) ∧
      (split_video env cfg d splits entries0 fs0).trace = [] ∧
      (split_video env cfg d splits entries0 fs0).fs = cleanupFs cfg.input [] fs0 := by
  obtain ⟨k, hk⟩ := validateSplits_keyerror d splits 0 j s hj hmiss
  unfold split_video
  rw [hk]
  exact ⟨k, rfl, rfl, rfl⟩

/-- Witness for the amended C10: a single request with no start key aborts
the run with a `KeyError`, an empty trace, and a cleaned filesystem. -/
theorem missing_key_aborts_witness :
    ∃ k, (split_video envAllOk sampleCfg dur100 [⟨none, some "1"⟩] [] ["/s/in.mp4"]).result
        = .error (.keyError k) ∧
      (split_video envAllOk sampleCfg dur100 [⟨none, some "1"⟩] [] ["/s/in.mp4"]).trace = [] ∧
      (split_video envAllOk sampleCfg dur100 [⟨none, some "1"⟩] [] ["/s/in.mp4"]).fs
        = cleanupFs sampleCfg.input [] ["/s/in.mp4"] :=
  missing_key_aborts envAllOk sampleCfg dur100 [⟨none, some "1"⟩] [] ["/s/in.mp4"] 0
    ⟨none, some "1"⟩ (by decide) (Or.inl rfl)

/-- Counterexample to C10 as stated: a request lacking its end key whose
start string does not parse is skipped like any parse failure — the end
key is never read, no `KeyError` arises, and the run completes
successfully instead of aborting. -/
theorem missing_end_after_bad_start_not_keyerror :
    ((⟨some "abc", none⟩ : RawSplit).«end» = none) ∧
    (split_video envAllOk sampleCfg dur100 [⟨some "abc", none⟩, ⟨some "0", some "1"⟩] []
        ["/s/in.mp4"]).result
      = .ok ([⟨some 2, some "u0", some "0", some "1"⟩], "/s/in.mp4") :=
  ⟨rfl, by decide⟩

/-- C6 (amended): loading the prior manifest never raises; a non-200
existence check, a network or download error, malformed JSON, or a JSON
top level that is not an object all yield the empty manifest (null path,
no splits), while an object whose video_splits field is not a list resets
only the splits to empty and keeps the object's video_path value. -/
theorem load_manifest_failure_modes (env : LoadEnv) :
    ((env.headStatus ≠ some 200 ∨ env.downloadOk = false ∨ env.readJson = none ∨
        (∃ jv, env.readJson = some jv ∧ ∀ fields, jv ≠ Json.obj fields)) →
      load_video_json env = (Json.null, [])) ∧
    (∀ fields, env.headStatus = some 200 → env.downloadOk = true →
      env.readJson = some (Json.obj fields) →
      (∀ xs, (lookupField fields "video_splits").getD (Json.arr []) ≠ Json.arr xs) →
      load_video_json env = ((lookupField fields "video_path").getD Json.null, [])) := by
  constructor
  · intro h
    unfold load_video_json
    cases hh : env.headStatus with
    | none => rfl
    | some code =>
      by_cases hc : code = 200
      · subst hc
        dsimp only
        rw [if_pos rfl]
        rcases h with h1 | h2 | h3 | ⟨jv, hjv, hno⟩
        · exact absurd hh h1
        · rw [h2]
          rfl
        · rw [h3]
          cases henv : env.downloadOk <;> rfl
        · rw [hjv]
          cases jv with
          | obj fields => exact absurd rfl (hno fields)
          | null => cases henv : env.downloadOk <;> rfl
          | bool b => cases henv : env.downloadOk <;> rfl
          | num q => cases henv : env.downloadOk <;> rfl
          | str s2 => cases henv : env.downloadOk <;> rfl
          | arr xs => cases henv : env.downloadOk <;> rfl
      · dsimp only
        rw [if_neg hc]
  · intro fields h200 hdl hread hnolist
    unfold load_video_json
    rw [h200]
    dsimp only
    rw [if_pos rfl, hdl, if_pos rfl, hread]
    dsimp only
    cases hg : (lookupField fields "video_splits").getD (Json.arr []) with
    | arr xs => exact absurd hg (hnolist xs)
    | null => rfl
    | bool b => rfl
    | num q => rfl
    | str s2 => rfl
    | obj fs2 => rfl

/-- Counterexample to C6 as stated: a manifest object with a string
video_path and a numeric video_splits loads as that path with empty
splits, not as the empty manifest (videoPath is not null). -/
theorem load_manifest_keeps_video_path_on_bad_splits :
    load_video_json loadEnvBadSplits = (Json.str "/tmp/v.mp4", []) ∧
    Json.str "/tmp/v.mp4" ≠ Json.null :=
  ⟨rfl, fun h => Json.noConfusion h⟩

/-- Witness for the amended C6: a 404 on the existence check yields the
empty manifest. -/
theorem load_manifest_failure_modes_witness :
    load_video_json ⟨some 404, true, none⟩ = (Json.null, []) :=
  (load_manifest_failure_modes ⟨some 404, true, none⟩).1
    (Or.inl (by intro h; injection h with h1; cases h1))

/-- C1, evaluated at the failing input: one segment, encoder succeeds,
`upload_file` returns no URL.  The run aborts with the upload-failed error
and removes the input file, but the freshly encoded segment file is still
on disk when the error propagates: split.py appends files to `temp_files`
only after a successful manifest upload (lines 262-263, after deleting
them moments later anyway), so the cleanup handler never sees the current
segment's files — contradicting the claim that every leftover local temp
file is removed. -/
theorem upload_failure_leaves_segment_file :
    (split_video envUploadNone sampleCfg dur100 [⟨some "0", some "10"⟩] []
        ["/s/in.mp4"]).result = .error (.uploadFailed 1) ∧
    outputFilename sampleCfg 0 ∈
      (split_video envUploadNone sampleCfg dur100 [⟨some "0", some "10"⟩] []
        ["/s/in.mp4"]).fs ∧
    sampleCfg.input ∉
      (split_video envUploadNone sampleCfg dur100 [⟨some "0", some "10"⟩] []
        ["/s/in.mp4"]).fs ∧
    Ev.encodeCall 1 true ∈
      (split_video envUploadNone sampleCfg dur100 [⟨some "0", some "10"⟩] []
        ["/s/in.mp4"]).trace :=
  ⟨by decide, by decide, by decide, by decide⟩
